import Mathlib

/-!
Shallow embedding of the LottaWords NYT Letter Boxed solver
(`src/lottawords/solver.py`, class `LetterBoxedSolver`).

Words are lists of characters; a square is an ordered association list from
side names to the letters on that side (Python `Dict[str, Set[str]]`, whose
iteration order is insertion order).  Python sets of letters are embedded as
duplicate-free lists; only membership, cardinality and canonical (sorted)
serialisation of such sets are used by the code, all of which are preserved.
-/

abbrev Word := List Char

abbrev Square := List (String × List Char)

/-- `LetterBoxedSolver._normalize_square`: lowercase every letter of every
side, keeping side order. -/
def normalize_square (square : Square) : Square :=
  square.map (fun p => (p.1, p.2.map Char.toLower))

/-- The set `all_letters` built inside `is_valid_word` / `covers_all_letters`:
all (lowercased) letters appearing on any side of the square. -/
def square_all_letters (square : Square) : List Char :=
  ((normalize_square square).map (fun p => p.2)).flatten

/-- The `letter_sides` mapping built inside `is_valid_word`: each letter maps
to the side that owns it.  The Python loop over `normalized_square.items()`
assigns sides in order, so a letter on several sides ends up mapped to the
last such side; hence the reversed search. -/
def letter_sides (square : Square) (c : Char) : Option String :=
  (((normalize_square square).reverse).find? (fun p => p.2.contains c)).map (fun p => p.1)

/-- `LetterBoxedSolver.is_valid_word`. -/
def is_valid_word (word : Word) (square : Square) : Bool :=
  if word = [] then false
  else
    let w := word.map Char.toLower
    let all_letters := square_all_letters square
    w.all (fun c => all_letters.contains c) &&
      (w.zip w.tail).all (fun p => !(letter_sides square p.1 == letter_sides square p.2))

/-- `LetterBoxedSolver.covers_all_letters`: the set difference
`all_letters - used_letters` must be empty. -/
def covers_all_letters (used_letters : List Char) (square : Square) : Bool :=
  let used := used_letters.map Char.toLower
  let all_letters := square_all_letters square
  (all_letters.filter (fun c => !used.contains c)).isEmpty

/-- The filtering loop of `find_shortest_solution` (lines 135-144): for each
non-empty dictionary word whose lowercase form is valid, keep the pair
`(word_lower, word)`.  `playable_words` is the first projection and the
`original_case` dict is the association list of these pairs (later pairs
overwrite earlier ones on lookup, as Python dict assignment does). -/
def playablePairs (square : Square) (word_source : List Word) : List (Word × Word) :=
  word_source.filterMap (fun word =>
    if word = [] then none
    else
      let word_lower := word.map Char.toLower
      if is_valid_word word_lower (normalize_square square) then some (word_lower, word)
      else none)

def playable_words (square : Square) (word_source : List Word) : List Word :=
  (playablePairs square word_source).map (fun p => p.1)

def original_case (square : Square) (word_source : List Word) : List (Word × Word) :=
  playablePairs square word_source

/-- Lookup in the `original_case` dict: Python dict assignment overwrites, so
the value of the last inserted pair with the given key wins. -/
def lookup_original (m : List (Word × Word)) (k : Word) : Option Word :=
  (m.reverse.find? (fun p => p.1 == k)).map (fun p => p.2)

/-- Sort key of line 150: `(len(w), -len(set(w)))`, ascending.  Python's
`list.sort` is a stable sort; a stable sort with respect to a total preorder
has a unique possible output, so it is embedded as stable insertion sort. -/
def playable_r (a b : Word) : Prop :=
  a.length < b.length ∨ (a.length = b.length ∧ b.dedup.length ≤ a.dedup.length)

instance : DecidableRel playable_r := fun a b => by
  unfold playable_r; infer_instance

def sorted_playable (square : Square) (word_source : List Word) : List Word :=
  (playable_words square word_source).insertionSort playable_r

/-- `first_letter_map.get(c, [])`: the playable words (in sorted order)
starting with the letter `c`. -/
def first_letter_map (playable : List Word) (c : Char) : List Word :=
  playable.filter (fun w => w.head? == some c)

/-- `all_puzzle_letters`, built from the caller's square with lowercasing —
the same letters as `square_all_letters`. -/
def all_puzzle_letters (square : Square) : List Char :=
  square_all_letters square

/-- `len(set(w).intersection(all_puzzle_letters))` for the fallback sort. -/
def coverage (allP : List Char) (w : Word) : Nat :=
  ((w.dedup).filter (fun c => allP.contains c)).length

/-- Fallback sort key (line 256-257): `(coverage, -len(w))`, ascending. -/
def fallback_r (allP : List Char) (u v : Word) : Prop :=
  coverage allP u < coverage allP v ∨
    (coverage allP u = coverage allP v ∧ v.length ≤ u.length)

instance (allP : List Char) : DecidableRel (fallback_r allP) := fun u v => by
  unfold fallback_r; infer_instance

/-- Successor ranking key (line 233): `(-new_letters, len(word))`, ascending. -/
def priority_r (x y : Word × Nat) : Prop :=
  y.2 < x.2 ∨ (x.2 = y.2 ∧ x.1.length ≤ y.1.length)

instance : DecidableRel priority_r := fun x y => by
  unfold priority_r; infer_instance

/-- `''.join(sorted(used_letters))`: canonical serialisation of a letter set. -/
def sort_chars (l : List Char) : List Char :=
  l.insertionSort (fun a b => a ≤ b)

/-- `min_solution and len(current_words) >= min_solution_len` (line 196). -/
def bestSkip : Option (List Word) → List Word → Bool
  | none, _ => false
  | some b, cw => decide (b.length ≤ cw.length)

/-- One tick of the `search_iterations` counter around a recursive call. -/
def tick (r : Option (List Word) × Nat) : Option (List Word) × Nat :=
  (r.1, r.2 + 1)

/-- Successor generation (lines 219-242): candidate next words are the
playable words starting with the last letter of the sequence's last word,
ranked by `(-new_letters, len(word))` and truncated to the branch limit
(25 for single-word sequences, 15 otherwise); each kept word extends the
sequence and the coverage set. -/
def expand_queue (playable : List Word) (cw : List Word) (used : List Char) :
    List (List Word × List Char) :=
  let last_letter := cw.getLast?.bind List.getLast?
  let next_words := match last_letter with
    | some c => first_letter_map playable c
    | none => []
  let prioritized := next_words.map
    (fun w => (w, ((w.dedup).filter (fun c => !used.contains c)).length))
  let ranked := prioritized.insertionSort priority_r
  let branch_limit := if cw.length = 1 then 25 else 15
  (ranked.take branch_limit).map
    (fun p => (cw ++ [p.1], (used ++ p.1.dedup).dedup))

/-- The search loop of `find_shortest_solution` (lines 190-242).  The `Nat`
fuel is the remaining iteration budget (`max_iterations - search_iterations`);
the returned number counts the dequeues actually performed, mirroring the
`search_iterations` counter.  The queue holds `(current_words, used_letters)`
pairs, `visited` the set of `(tuple(words), ''.join(sorted(used)))` keys. -/
def searchLoop (square : Square) (playable : List Word) (allP : List Char) :
    Nat → List (List Word × List Char) → List (List Word × List Char) →
    Option (List Word) → Option (List Word) × Nat
  | 0, _, _, best => (best, 0)
  | _ + 1, [], _, best => (best, 0)
  | fuel + 1, (cw, used) :: rest, visited, best =>
    if bestSkip best cw then
      tick (searchLoop square playable allP fuel rest visited best)
    else if (cw, sort_chars used) ∈ visited then
      tick (searchLoop square playable allP fuel rest visited best)
    else
      let visited2 := (cw, sort_chars used) :: visited
      if allP.all (fun c => used.contains c) then
        if covers_all_letters used square then
          if cw.length ≤ 2 then (some cw, 1)
          else tick (searchLoop square playable allP fuel rest visited2 (some cw))
        else tick (searchLoop square playable allP fuel rest visited2 best)
      else if 5 ≤ cw.length then
        tick (searchLoop square playable allP fuel rest visited2 best)
      else
        tick (searchLoop square playable allP fuel
          (rest ++ expand_queue playable cw used) visited2 best)

/-- The list comprehension `[original_case[word] for word in min_solution]`
inside its `try`: `none` models the `KeyError` path (lines 248-252). -/
def restore_case (m : List (Word × Word)) : List Word → Option (List Word)
  | [] => some []
  | w :: ws =>
    match lookup_original m w, restore_case m ws with
    | some r, some rs => some (r :: rs)
    | _, _ => none

/-- The seeded search of `find_shortest_solution`: queue seeded with one
single-word sequence per (sorted) playable word, budget 100000 dequeues. -/
def search_result (square : Square) (word_source : List Word) :
    Option (List Word) × Nat :=
  searchLoop square (sorted_playable square word_source) (all_puzzle_letters square)
    100000
    ((sorted_playable square word_source).map (fun w => ([w], w.dedup)))
    [] none

/-- `LetterBoxedSolver.find_shortest_solution` on an already string-converted
dictionary. -/
def find_shortest_solution (square : Square) (dictionary : List Word) : List Word :=
  if dictionary.isEmpty then []
  else if (playable_words square dictionary).isEmpty then []
  else
    match (search_result square dictionary).1 with
    | some min_solution =>
      match restore_case (original_case square dictionary) min_solution with
      | some result => result
      | none => min_solution
    | none =>
      let best_words := (sorted_playable square dictionary).insertionSort
        (fallback_r (all_puzzle_letters square))
      match best_words.getLast? with
      | some best_word =>
        [(lookup_original (original_case square dictionary) best_word).getD best_word]
      | none => []

/-- A Python value appearing in the caller-supplied dictionary: either it
converts to a string (`str(word)` succeeds) or the conversion raises. -/
inductive PyVal where
  | str : Word → PyVal
  | unconvertible : PyVal
deriving DecidableEq

/-- The caller-supplied dictionary object: either not a list at all, or a
list of values. -/
inductive PyDict where
  | notList : PyDict
  | ofList : List PyVal → PyDict
deriving DecidableEq

def PyVal.toStr : PyVal → Option Word
  | .str w => some w
  | .unconvertible => none

/-- `[str(word) for word in dictionary]` inside its `try`: `none` models the
exception path. -/
def convert_words : List PyVal → Option (List Word)
  | [] => some []
  | v :: vs =>
    match v.toStr, convert_words vs with
    | some w, some ws => some (w :: ws)
    | _, _ => none

/-- The dynamic entry of `find_shortest_solution` (lines 118-126): a non-list
or falsy dictionary returns `[]`, a failing `str()` conversion returns `[]`,
otherwise solving proceeds on the converted word list. -/
def find_shortest_solution_py (square : Square) (dict : PyDict) : List Word :=
  match dict with
  | .notList => []
  | .ofList items =>
    if items.isEmpty then []
    else
      match convert_words items with
      | none => []
      | some word_source => find_shortest_solution square word_source

/-- Boolean test that no letter occurs (after lowercasing) on two different
sides of the square. -/
def sides_disjointb : Square → Bool
  | [] => true
  | p :: rest =>
    (rest.all (fun q => (p.2.map Char.toLower).all
      (fun c => !(q.2.map Char.toLower).contains c))) && sides_disjointb rest

/-! ### Concrete puzzles used in witnesses and counterexamples -/

/-- The spec's Example 1 square: `{top: "abc", right: "def", bottom: "ghi",
left: "jkl"}`. -/
def exampleSquare : Square :=
  [("top", "abc".toList), ("right", "def".toList),
   ("bottom", "ghi".toList), ("left", "jkl".toList)]

/-- A dictionary admitting exactly one 2-word covering solution. -/
def twoWordDict : List Word := ["adbecf".toList, "fgjhkil".toList]

/-- Two words with equal puzzle coverage but different lengths and no
covering combination. -/
def coverTieDict : List Word := ["ad".toList, "adad".toList]

/-- Two spellings of the same word differing only in casing. -/
def caseDict : List Word := ["AD".toList, "aD".toList]

/-- The same playable word listed twice. -/
def dupDict : List Word := ["ad".toList, "ad".toList]

/-- A dictionary word `w` is an occurrence of the playable lowercase form
`k`: it is non-empty, lowercases to `k`, and `k` is valid for the square. -/
def is_occurrence (square : Square) (k : Word) (w : Word) : Bool :=
  !(w.isEmpty) && (w.map Char.toLower == k) &&
    is_valid_word (w.map Char.toLower) (normalize_square square)

instance : IsTotal Word playable_r :=
  ⟨by intro a b; unfold playable_r; omega⟩

instance : IsTrans Word playable_r :=
  ⟨by intro a b c hab hbc; unfold playable_r at *; omega⟩

instance (allP : List Char) : IsTotal Word (fallback_r allP) :=
  ⟨by intro a b; unfold fallback_r; omega⟩

instance (allP : List Char) : IsTrans Word (fallback_r allP) :=
  ⟨by intro a b c h1 h2; unfold fallback_r at *; omega⟩

/-- Invariant of every word sequence the search manipulates: non-empty, made
of playable words, and chained (each word starts with the last letter of the
previous one). -/
def SeqGood (playable : List Word) (ws : List Word) : Prop :=
  ws ≠ [] ∧ (∀ w ∈ ws, w ∈ playable) ∧
    List.Chain' (fun a b : Word => a.getLast? = b.head?) ws


/-! ### Helper lemmas -/

theorem all_zip_tail_eq_chain {α : Type} (f : α → α → Bool) :
    ∀ l : List α,
      ((l.zip l.tail).all (fun p => f p.1 p.2) = true) ↔
        List.Chain' (fun a b => f a b = true) l := by
  intro l
  induction l with
  | nil => simp
  | cons a t ih =>
    cases t with
    | nil => simp
    | cons b t2 =>
      simp only [List.tail_cons, List.zip_cons_cons, List.all_cons,
        Bool.and_eq_true, List.chain'_cons]
      exact and_congr Iff.rfl ih

theorem mem_square_all_letters {square : Square} {c : Char} :
    c ∈ square_all_letters square ↔ ∃ p ∈ square, c ∈ p.2.map Char.toLower := by
  unfold square_all_letters normalize_square
  rw [List.map_map]
  simp [List.mem_flatten]
  constructor
  · rintro ⟨l, ⟨a, b, hab, rfl⟩, hc⟩
    exact ⟨a, b, hab, by simpa using hc⟩
  · rintro ⟨a, b, hab, x, hx, rfl⟩
    exact ⟨b.map Char.toLower, ⟨a, b, hab, rfl⟩, by simp; exact ⟨x, hx, rfl⟩⟩

/-- Claim C2: for a square whose four sides are pairwise-disjoint sets of
letters, `is_valid_word word square` is true iff the word is non-empty, every
letter of the lowercased word belongs to some side of the square, and every
pair of consecutive letters comes from different owning sides; in particular
the empty word is rejected. -/
theorem claim_c2_is_valid_word_iff (square : Square) (word : Word)
    (hdisj : sides_disjointb square = true) (hfour : square.length = 4) :
    is_valid_word word square = true ↔
      word ≠ [] ∧
      (∀ c ∈ word.map Char.toLower, ∃ p ∈ square, c ∈ p.2.map Char.toLower) ∧
      List.Chain' (fun a b => letter_sides square a ≠ letter_sides square b)
        (word.map Char.toLower) := by
  unfold is_valid_word
  by_cases hw : word = []
  · simp [hw]
  · have h2 := all_zip_tail_eq_chain
      (fun a b => !(letter_sides square a == letter_sides square b))
      (word.map Char.toLower)
    rw [if_neg hw, Bool.and_eq_true, h2]
    constructor
    · rintro ⟨ha, hb⟩
      refine ⟨hw, ?_, hb.imp (fun a b hx => by simpa using hx)⟩
      intro c hc
      exact mem_square_all_letters.mp (by simpa using (List.all_eq_true.mp ha c hc))
    · rintro ⟨-, ha, hb⟩
      refine ⟨List.all_eq_true.mpr fun c hc => ?_,
        hb.imp (fun a b hx => by simpa using hx)⟩
      simpa using mem_square_all_letters.mpr (ha c hc)

theorem covers_all_letters_iff (used_letters : List Char) (square : Square) :
    covers_all_letters used_letters square = true ↔
      ∀ c ∈ square_all_letters square, c ∈ used_letters.map Char.toLower := by
  unfold covers_all_letters
  simp [List.isEmpty_iff, List.filter_eq_nil_iff]

/-- Claim C8: `covers_all_letters used_letters square` is true iff the set
difference between the set of all letters on any side of the square and the
(case-insensitively compared) used letters is empty; extra used letters that
are not square letters never change the result. -/
theorem claim_c8_covers_all_letters (used_letters : List Char) (square : Square) :
    (covers_all_letters used_letters square = true ↔
      ∀ c ∈ square_all_letters square, c ∈ used_letters.map Char.toLower) ∧
    (∀ extra : List Char,
      (∀ e ∈ extra, Char.toLower e ∉ square_all_letters square) →
      covers_all_letters (used_letters ++ extra) square =
        covers_all_letters used_letters square) := by
  refine ⟨covers_all_letters_iff _ _, ?_⟩
  intro extra hextra
  rw [Bool.eq_iff_iff, covers_all_letters_iff, covers_all_letters_iff]
  constructor
  · intro h c hc
    have := h c hc
    rw [List.map_append, List.mem_append] at this
    rcases this with h2 | h2
    · exact h2
    · obtain ⟨e, he, rfl⟩ := List.mem_map.mp h2
      exact absurd hc (hextra e he)
  · intro h c hc
    rw [List.map_append, List.mem_append]
    exact Or.inl (h c hc)

theorem convert_words_eq_none {items : List PyVal}
    (h : PyVal.unconvertible ∈ items) : convert_words items = none := by
  induction items with
  | nil => cases h
  | cons v vs ih =>
    rcases List.mem_cons.mp h with rfl | h2
    · rfl
    · unfold convert_words
      rw [ih h2]
      cases (PyVal.toStr v) <;> rfl

/-- Claim C6: `find_shortest_solution` never raises — a non-list dictionary,
an empty dictionary, a dictionary containing an element whose string
conversion fails, or a dictionary yielding zero playable words each produce
the empty list (not an absent value and not an error). -/
theorem claim_c6_degrades_to_empty (square : Square) :
    find_shortest_solution_py square PyDict.notList = [] ∧
    find_shortest_solution_py square (PyDict.ofList []) = [] ∧
    (∀ items : List PyVal, PyVal.unconvertible ∈ items →
      find_shortest_solution_py square (PyDict.ofList items) = []) ∧
    (∀ dictionary : List Word, playable_words square dictionary = [] →
      find_shortest_solution square dictionary = []) := by
  refine ⟨rfl, rfl, ?_, ?_⟩
  · intro items hmem
    by_cases he : items.isEmpty
    · simp [find_shortest_solution_py, he]
    · simp [find_shortest_solution_py, he, convert_words_eq_none hmem]
  · intro dictionary hplay
    unfold find_shortest_solution
    by_cases hd : dictionary.isEmpty
    · simp [hd]
    · simp [hd, hplay]

/-- Witness for claim C6 at concrete inputs. -/
theorem claim_c6_witness :
    find_shortest_solution_py exampleSquare (PyDict.ofList [PyVal.unconvertible]) = [] ∧
    find_shortest_solution exampleSquare ["zz".toList] = [] :=
  ⟨(claim_c6_degrades_to_empty exampleSquare).2.2.1 _ (by decide),
   (claim_c6_degrades_to_empty exampleSquare).2.2.2 _ (by decide)⟩

/-- Witness for claim C8 at concrete inputs. -/
theorem claim_c8_witness :
    covers_all_letters ("ad".toList ++ "z".toList) exampleSquare =
      covers_all_letters "ad".toList exampleSquare :=
  (claim_c8_covers_all_letters "ad".toList exampleSquare).2 "z".toList (by decide)

/-- Witness for claim C2 at a concrete square and word. -/
theorem claim_c2_witness :
    is_valid_word "ad".toList exampleSquare = true := by
  refine (claim_c2_is_valid_word_iff exampleSquare "ad".toList (by decide)
    (by decide)).mpr ⟨by decide, by decide, ?_⟩
  rw [show List.map Char.toLower "ad".toList = ['a', 'd'] from rfl]
  exact List.chain'_cons.mpr ⟨by decide, List.chain'_singleton _⟩

/-- Claim C7: once the search dequeues a state it confirms as a covering
solution of length at most 2, it performs no further dequeues: whatever the
rest of the frontier, the visited set and the remaining iteration budget,
exactly one dequeue happens from that configuration and the loop returns
immediately with that solution. -/
theorem claim_c7_early_exit (square : Square) (playable : List Word)
    (allP : List Char) (fuel : Nat) (cw : List Word) (used : List Char)
    (rest visited : List (List Word × List Char)) (best : Option (List Word))
    (h1 : bestSkip best cw = false)
    (h2 : (cw, sort_chars used) ∉ visited)
    (h3 : allP.all (fun c => used.contains c) = true)
    (h4 : covers_all_letters used square = true)
    (h5 : cw.length ≤ 2) :
    searchLoop square playable allP (fuel + 1) ((cw, used) :: rest) visited best
      = (some cw, 1) := by
  unfold searchLoop
  simp only [h1, h3, h4]
  simp [h2, h5]

/-- Witness for claim C7: a confirming dequeue with a non-empty frontier behind it performs exactly one dequeue. -/
theorem claim_c7_witness :
    searchLoop exampleSquare ["adbecf".toList, "fgjhkil".toList]
      (all_puzzle_letters exampleSquare) (99 + 1)
      [(["adbecf".toList, "fgjhkil".toList], "abcdefghijkl".toList),
       (["fgjhkil".toList], "fgjhkil".toList)] [] none
      = (some ["adbecf".toList, "fgjhkil".toList], 1) :=
  claim_c7_early_exit _ _ _ 99 _ _ _ _ _ rfl (by decide) (by decide) (by decide)
    (by decide)

/-- Claim C5 (amended): the playable-word list seeding the search is sorted
by ascending word length with ties broken by descending count of distinct
letters, and is a permutation of the filter output — but it is not
deduplicated: each valid dictionary occurrence keeps its own entry, so
duplicate lowercase forms may appear (see the counterexample). -/
theorem claim_c5_amended (square : Square) (dictionary : List Word) :
    (sorted_playable square dictionary).Perm (playable_words square dictionary) ∧
    List.Pairwise (fun a b : Word =>
      a.length < b.length ∨ (a.length = b.length ∧ b.dedup.length ≤ a.dedup.length))
      (sorted_playable square dictionary) := by
  have hs := List.sorted_insertionSort playable_r (playable_words square dictionary)
  exact ⟨List.perm_insertionSort _ _, hs⟩

/-- Counterexample to claim C5 as stated: the seeding list can contain duplicate lowercase forms. -/
theorem claim_c5_counterexample :
    ¬ (sorted_playable exampleSquare dupDict).Nodup := by
  intro h
  have he : sorted_playable exampleSquare dupDict = ["ad".toList, "ad".toList] := by
    decide
  rw [he] at h
  simp at h

theorem lookup_original_cons (x : Word × Word) (m : List (Word × Word)) (k : Word) :
    lookup_original (x :: m) k =
      match lookup_original m k with
      | some v => some v
      | none => if x.1 == k then some x.2 else none := by
  unfold lookup_original
  rw [List.reverse_cons, List.find?_append]
  cases h : m.reverse.find? (fun p => p.1 == k) with
  | none =>
    by_cases hk : (x.1 == k) = true
    · simp [h, List.find?, hk]
    · simp [h, List.find?, hk]
  | some v => simp [h]

theorem getLast?_cons_cases {α : Type} (a : α) (l : List α) :
    (a :: l).getLast? =
      match l.getLast? with
      | some v => some v
      | none => some a := by
  cases l with
  | nil => rfl
  | cons b t =>
    rw [List.getLast?_cons_cons]
    cases h : (b :: t).getLast? with
    | none => simp at h
    | some v => rfl

/-- Claim C4 (amended): the original casing remembered for a lowercase form
(and restored in the returned solution) is the casing of the LAST such
occurrence in the dictionary order, not the first: `original_case` lookup
returns the last non-empty valid dictionary word lowercasing to the key,
because Python dict assignment overwrites earlier entries. -/
theorem claim_c4_amended (square : Square) (dictionary : List Word) (k : Word) :
    lookup_original (original_case square dictionary) k =
      (dictionary.filter (is_occurrence square k)).getLast? := by
  unfold original_case
  induction dictionary with
  | nil => rfl
  | cons w d ih =>
    by_cases hw : w = []
    · have h1 : playablePairs square (w :: d) = playablePairs square d := by
        unfold playablePairs
        rw [List.filterMap_cons]
        simp [hw]
      have hc : is_occurrence square k w = false := by
        simp [is_occurrence, hw]
      rw [h1, ih, List.filter_cons]
      simp [hc]
    · by_cases hv : is_valid_word (w.map Char.toLower) (normalize_square square) = true
      · have h1 : playablePairs square (w :: d) =
            (w.map Char.toLower, w) :: playablePairs square d := by
          unfold playablePairs
          rw [List.filterMap_cons]
          simp [hw, hv]
        rw [h1, lookup_original_cons, ih]
        by_cases hk : (w.map Char.toLower == k) = true
        · have hc : is_occurrence square k w = true := by
            simp [is_occurrence, hw, hv, hk]
          rw [List.filter_cons]
          simp only [hc, if_true]
          rw [getLast?_cons_cases]
          cases hgl : (d.filter (is_occurrence square k)).getLast? with
          | none => simp [hgl, hk]
          | some v => simp [hgl]
        · have hc : is_occurrence square k w = false := by
            simp [is_occurrence, hk]
          rw [List.filter_cons]
          simp only [hc, Bool.false_eq_true, if_false]
          cases hgl : (d.filter (is_occurrence square k)).getLast? with
          | none => simp [hgl, hk]
          | some v => simp [hgl]
      · have h1 : playablePairs square (w :: d) = playablePairs square d := by
          unfold playablePairs
          rw [List.filterMap_cons]
          simp [hw, hv]
        have hc : is_occurrence square k w = false := by
          simp [is_occurrence, hv]
        rw [h1, ih, List.filter_cons]
        simp [hc]

/-- Counterexample to claim C4 as stated: with two casings of the same word, the LAST casing is remembered and returned, not the first. -/
theorem claim_c4_counterexample :
    lookup_original (original_case exampleSquare caseDict) ("ad".toList) =
      some ("aD".toList) ∧
    find_shortest_solution exampleSquare caseDict = [("aD".toList)] ∧
    ("aD".toList : Word) ≠ ("AD".toList : Word) := by decide

theorem pairwise_getLast_max {α : Type} {R : α → α → Prop}
    (hrefl : ∀ a, R a a) :
    ∀ l : List α, l.Pairwise R → ∀ b, l.getLast? = some b → ∀ u ∈ l, R u b := by
  intro l
  induction l with
  | nil => intro _ b hb; simp at hb
  | cons a t ih =>
    intro hp b hb u hu
    cases t with
    | nil =>
      have hab : a = b := Option.some.inj hb
      have hua : u = a := by simpa using hu
      rw [hua, hab]
      exact hrefl b
    | cons c t2 =>
      rw [List.getLast?_cons_cons] at hb
      rcases List.mem_cons.mp hu with rfl | hu2
      · exact (List.pairwise_cons.mp hp).1 b (List.mem_of_getLast?_eq_some hb)
      · exact ih (List.pairwise_cons.mp hp).2 b hb u hu2

theorem mem_playablePairs {square : Square} {d : List Word} {p : Word × Word}
    (hp : p ∈ playablePairs square d) :
    p.2 ∈ d ∧ p.2 ≠ [] ∧ p.1 = p.2.map Char.toLower ∧
      is_valid_word p.1 (normalize_square square) = true := by
  obtain ⟨w, hw, hf⟩ := List.mem_filterMap.mp hp
  by_cases hnil : w = []
  · simp [hnil] at hf
  · rw [if_neg hnil] at hf
    by_cases hv : is_valid_word (w.map Char.toLower) (normalize_square square) = true
    · simp only [hv, if_true] at hf
      injection hf with h
      subst h
      exact ⟨hw, hnil, rfl, hv⟩
    · simp [hv] at hf

theorem lookup_original_eq_some {m : List (Word × Word)} {k v : Word}
    (h : lookup_original m k = some v) : (k, v) ∈ m := by
  unfold lookup_original at h
  cases hf : m.reverse.find? (fun p => p.1 == k) with
  | none => rw [hf] at h; cases h
  | some p =>
    rw [hf] at h
    have hp1 : p.1 = k := by simpa using List.find?_some hf
    have hpm : p ∈ m := List.mem_reverse.mp (List.mem_of_find?_eq_some hf)
    have hp2 : p.2 = v := by simpa using h
    rw [← hp1, ← hp2]
    exact Prod.mk.eta ▸ hpm

theorem lookup_original_key_isSome {square : Square} {d : List Word} {k : Word}
    (hk : k ∈ playable_words square d) :
    ∃ v, lookup_original (original_case square d) k = some v := by
  unfold playable_words at hk
  obtain ⟨p, hp, rfl⟩ := List.mem_map.mp hk
  unfold lookup_original original_case
  have hex : ∃ x, x ∈ (playablePairs square d).reverse ∧ (x.1 == p.1) = true :=
    ⟨p, List.mem_reverse.mpr hp, by simp⟩
  obtain ⟨q, hq⟩ := Option.isSome_iff_exists.mp (List.find?_isSome.mpr hex)
  exact ⟨q.2, by rw [hq]; rfl⟩

/-- Claim C3 (amended): when the search finds no covering sequence but at
least one playable word exists, `find_shortest_solution` returns exactly one
word: a playable word maximizing the count of distinct square letters it
covers, with ties among equal-coverage words broken by preferring the
SHORTER word — not the longer one as the spec claims (the code sorts by
ascending `(coverage, -len)` and takes the last element). -/
theorem claim_c3_amended (square : Square) (dictionary : List Word)
    (hnone : (search_result square dictionary).1 = none)
    (hplay : playable_words square dictionary ≠ []) :
    ∃ b ∈ playable_words square dictionary,
      (find_shortest_solution square dictionary).map (List.map Char.toLower) = [b] ∧
      ∀ u ∈ playable_words square dictionary,
        coverage (all_puzzle_letters square) u <
          coverage (all_puzzle_letters square) b ∨
        (coverage (all_puzzle_letters square) u =
          coverage (all_puzzle_letters square) b ∧ b.length ≤ u.length) := by
  have hd : dictionary.isEmpty = false := by
    cases dictionary with
    | nil => exact absurd rfl hplay
    | cons _ _ => rfl
  have hpe : (playable_words square dictionary).isEmpty = false := by
    simp [List.isEmpty_iff, hplay]
  have hbwperm : ((sorted_playable square dictionary).insertionSort
      (fallback_r (all_puzzle_letters square))).Perm (playable_words square dictionary) :=
    (List.perm_insertionSort _ _).trans (List.perm_insertionSort _ _)
  have hbwne : (sorted_playable square dictionary).insertionSort
      (fallback_r (all_puzzle_letters square)) ≠ [] := by
    intro h
    rw [h] at hbwperm
    exact hplay hbwperm.nil_eq.symm
  cases hgl : ((sorted_playable square dictionary).insertionSort
      (fallback_r (all_puzzle_letters square))).getLast? with
  | none => exact absurd (List.getLast?_eq_none_iff.mp hgl) hbwne
  | some b =>
    have hbmem : b ∈ playable_words square dictionary :=
      hbwperm.mem_iff.mp (List.mem_of_getLast?_eq_some hgl)
    obtain ⟨v, hv⟩ := lookup_original_key_isSome hbmem
    have hpair := mem_playablePairs (lookup_original_eq_some hv)
    refine ⟨b, hbmem, ?_, ?_⟩
    · unfold find_shortest_solution
      simp only [hd, Bool.false_eq_true, if_false, hpe, hnone, hgl, hv]
      simp [← hpair.2.2.1]
    · intro u hu
      have hub : fallback_r (all_puzzle_letters square) u b := by
        refine pairwise_getLast_max ?_ _
          (List.sorted_insertionSort (fallback_r (all_puzzle_letters square)) _)
          b hgl u (hbwperm.mem_iff.mpr hu)
        intro a
        exact Or.inr ⟨rfl, le_refl _⟩
      exact hub

/-- Counterexample to claim C3 as stated: with two equal-coverage playable words of different lengths and no covering solution, the SHORTER word is returned. -/
theorem claim_c3_counterexample :
    (search_result exampleSquare coverTieDict).1 = none ∧
    "adad".toList ∈ playable_words exampleSquare coverTieDict ∧
    coverage (all_puzzle_letters exampleSquare) "adad".toList =
      coverage (all_puzzle_letters exampleSquare) "ad".toList ∧
    ("ad".toList : Word).length < ("adad".toList : Word).length ∧
    find_shortest_solution exampleSquare coverTieDict = ["ad".toList] := by
  decide

/-- Witness for the amended claim C3 at concrete inputs. -/
theorem claim_c3_witness :
    ∃ b ∈ playable_words exampleSquare coverTieDict,
      (find_shortest_solution exampleSquare coverTieDict).map (List.map Char.toLower)
        = [b] ∧
      ∀ u ∈ playable_words exampleSquare coverTieDict,
        coverage (all_puzzle_letters exampleSquare) u <
          coverage (all_puzzle_letters exampleSquare) b ∨
        (coverage (all_puzzle_letters exampleSquare) u =
          coverage (all_puzzle_letters exampleSquare) b ∧ b.length ≤ u.length) :=
  claim_c3_amended exampleSquare coverTieDict (by decide) (by decide)

theorem seqGood_append {playable cw : List Word} {w : Word} {c : Char}
    (hcw : SeqGood playable cw) (hw : w ∈ playable)
    (hll : cw.getLast?.bind List.getLast? = some c)
    (hhead : w.head? = some c) :
    SeqGood playable (cw ++ [w]) := by
  obtain ⟨hne, hmem, hch⟩ := hcw
  refine ⟨by simp, ?_, ?_⟩
  · intro x hx
    rcases List.mem_append.mp hx with h | h
    · exact hmem x h
    · obtain rfl : x = w := by simpa using h
      exact hw
  · rw [List.chain'_append]
    refine ⟨hch, List.chain'_singleton _, ?_⟩
    intro x hx y hy
    obtain rfl : w = y := by simpa using hy
    obtain ⟨lw, hlw, hlwl⟩ := Option.bind_eq_some.mp hll
    have hxl : lw = x := by
      rw [hlw] at hx
      simpa using hx
    rw [← hxl]
    rw [hhead, hlwl]

theorem expand_queue_good {playable cw : List Word} {used : List Char}
    (hcw : SeqGood playable cw) :
    ∀ e ∈ expand_queue playable cw used, SeqGood playable e.1 := by
  intro e he
  unfold expand_queue at he
  cases hll : cw.getLast?.bind List.getLast? with
  | none => rw [hll] at he; simp at he
  | some c =>
    rw [hll] at he
    obtain ⟨p, hp, rfl⟩ := List.mem_map.mp he
    have hpm := (List.mem_insertionSort priority_r).mp (List.mem_of_mem_take hp)
    obtain ⟨w, hwn, rfl⟩ := List.mem_map.mp hpm
    have hw : w ∈ playable := List.mem_of_mem_filter hwn
    have hhead : w.head? = some c := by
      simpa using List.of_mem_filter hwn
    exact seqGood_append hcw hw hll hhead

theorem searchLoop_good (square : Square) (playable : List Word)
    (allP : List Char) :
    ∀ (fuel : Nat) (queue visited : List (List Word × List Char))
      (best : Option (List Word)),
      (∀ e ∈ queue, SeqGood playable e.1) →
      (∀ b, best = some b → SeqGood playable b) →
      ∀ res, (searchLoop square playable allP fuel queue visited best).1 = some res →
        SeqGood playable res := by
  intro fuel
  induction fuel with
  | zero =>
    intro queue visited best hq hb res hres
    exact hb res (by simpa [searchLoop] using hres)
  | succ fuel ih =>
    intro queue visited best hq hb res hres
    rcases queue with _ | ⟨⟨cw, used⟩, rest⟩
    · exact hb res (by simpa [searchLoop] using hres)
    · have hcw : SeqGood playable cw := hq _ (List.mem_cons_self _ _)
      have hrest : ∀ e ∈ rest, SeqGood playable e.1 :=
        fun e he => hq e (List.mem_cons_of_mem _ he)
      rw [searchLoop] at hres
      split at hres
      · exact ih rest visited best hrest hb res (by simpa [tick] using hres)
      · split at hres
        · exact ih rest visited best hrest hb res (by simpa [tick] using hres)
        · split at hres
          · split at hres
            · split at hres
              · have hcwres : cw = res := by simpa using hres
                exact hcwres ▸ hcw
              · refine ih rest _ (some cw) hrest ?_ res (by simpa [tick] using hres)
                intro b hb2
                exact (Option.some.inj hb2) ▸ hcw
            · exact ih rest _ best hrest hb res (by simpa [tick] using hres)
          · split at hres
            · exact ih rest _ best hrest hb res (by simpa [tick] using hres)
            · refine ih (rest ++ expand_queue playable cw used) _ best ?_ hb res
                (by simpa [tick] using hres)
              intro e he
              rcases List.mem_append.mp he with h | h
              · exact hrest e h
              · exact expand_queue_good hcw e h

theorem restore_case_isSome {m : List (Word × Word)} :
    ∀ ws : List Word, (∀ w ∈ ws, ∃ v, lookup_original m w = some v) →
      ∃ rs, restore_case m ws = some rs := by
  intro ws
  induction ws with
  | nil => exact fun _ => ⟨[], rfl⟩
  | cons w t ih =>
    intro h
    obtain ⟨v, hv⟩ := h w (List.mem_cons_self _ _)
    obtain ⟨rs, hrs⟩ := ih (fun x hx => h x (List.mem_cons_of_mem _ hx))
    refine ⟨v :: rs, ?_⟩
    unfold restore_case
    rw [hv, hrs]

theorem restore_case_forall2 {m : List (Word × Word)} :
    ∀ ws rs : List Word, restore_case m ws = some rs →
      List.Forall₂ (fun s r => lookup_original m s = some r) ws rs := by
  intro ws
  induction ws with
  | nil =>
    intro rs h
    obtain rfl : [] = rs := Option.some.inj h
    exact List.Forall₂.nil
  | cons w t ih =>
    intro rs h
    unfold restore_case at h
    cases hv : lookup_original m w with
    | none => rw [hv] at h; simp at h
    | some v =>
      rw [hv] at h
      cases hr : restore_case m t with
      | none => rw [hr] at h; simp at h
      | some rs2 =>
        rw [hr] at h
        obtain rfl : v :: rs2 = rs := Option.some.inj h
        exact List.Forall₂.cons hv (ih rs2 hr)

theorem chain'_transfer {α β : Type} {S : α → β → Prop} {R : α → α → Prop}
    {R2 : β → β → Prop}
    (H : ∀ a b a2 b2, S a a2 → S b b2 → R a b → R2 a2 b2) :
    ∀ {l : List α} {l2 : List β}, List.Forall₂ S l l2 →
      List.Chain' R l → List.Chain' R2 l2 := by
  intro l l2 hf
  induction hf with
  | nil => exact fun _ => List.chain'_nil
  | cons ha ht iht =>
    intro hch
    cases ht with
    | nil => exact List.chain'_singleton _
    | cons hb ht2 =>
      rw [List.chain'_cons] at hch ⊢
      exact ⟨H _ _ _ _ ha hb hch.1, iht hch.2⟩

theorem search_result_good {square : Square} {dictionary : List Word} {sol : List Word}
    (h : (search_result square dictionary).1 = some sol) :
    SeqGood (sorted_playable square dictionary) sol := by
  refine searchLoop_good square (sorted_playable square dictionary)
    (all_puzzle_letters square) 100000
    ((sorted_playable square dictionary).map (fun w => ([w], w.dedup))) [] none
    ?_ ?_ sol h
  · intro e he
    obtain ⟨w, hw, rfl⟩ := List.mem_map.mp he
    refine ⟨List.cons_ne_nil _ _, ?_, List.chain'_singleton _⟩
    intro x hx
    obtain rfl : x = w := by simpa using hx
    exact hw
  · intro b hb
    cases hb

theorem sol_lookup_isSome {square : Square} {dictionary : List Word}
    {sol : List Word} (hgood : SeqGood (sorted_playable square dictionary) sol) :
    ∀ w ∈ sol, ∃ v, lookup_original (original_case square dictionary) w = some v := by
  intro w hw
  exact lookup_original_key_isSome
    ((List.mem_insertionSort playable_r).mp (hgood.2.1 w hw))

theorem find_shortest_solution_chain (square : Square) (dictionary : List Word) :
    List.Chain' (fun a b : Word =>
      (a.map Char.toLower).getLast? = (b.map Char.toLower).head?)
      (find_shortest_solution square dictionary) := by
  cases hd : dictionary.isEmpty with
  | true =>
    have he : find_shortest_solution square dictionary = [] := by
      unfold find_shortest_solution
      simp [hd]
    rw [he]
    exact List.chain'_nil
  | false =>
    cases hp : (playable_words square dictionary).isEmpty with
    | true =>
      have he : find_shortest_solution square dictionary = [] := by
        unfold find_shortest_solution
        simp [hd, hp]
      rw [he]
      exact List.chain'_nil
    | false =>
      cases hs : (search_result square dictionary).1 with
      | none =>
        cases hgl : ((sorted_playable square dictionary).insertionSort
            (fallback_r (all_puzzle_letters square))).getLast? with
        | none =>
          have he : find_shortest_solution square dictionary = [] := by
            unfold find_shortest_solution
            simp only [hd, hp, hs, hgl, Bool.false_eq_true, if_false]
          rw [he]
          exact List.chain'_nil
        | some b =>
          have he : find_shortest_solution square dictionary =
              [(lookup_original (original_case square dictionary) b).getD b] := by
            unfold find_shortest_solution
            simp only [hd, hp, hs, hgl, Bool.false_eq_true, if_false]
          rw [he]
          exact List.chain'_singleton _
      | some sol =>
        have hgood := search_result_good hs
        obtain ⟨rs, hrs⟩ := restore_case_isSome sol (sol_lookup_isSome hgood)
        have he : find_shortest_solution square dictionary = rs := by
          unfold find_shortest_solution
          simp only [hd, hp, hs, hrs, Bool.false_eq_true, if_false]
        rw [he]
        have hf2 := restore_case_forall2 sol rs hrs
        refine chain'_transfer ?_ hf2 hgood.2.2
        intro a b a2 b2 ha hb hr
        have hpa := mem_playablePairs (lookup_original_eq_some ha)
        have hpb := mem_playablePairs (lookup_original_eq_some hb)
        rw [← hpa.2.2.1, ← hpb.2.2.1]
        exact hr

/-- Claim C9: in every sequence returned by `find_shortest_solution`, each
word after the first begins (case-insensitively) with the same letter that
the preceding word ends with — the chaining invariant kept by every
successor expansion of the search. -/
theorem claim_c9_boundary_chaining (square : Square) (dictionary : List Word) :
    List.Chain' (fun a b : Word =>
      (a.map Char.toLower).getLast? = (b.map Char.toLower).head?)
      (find_shortest_solution square dictionary) :=
  find_shortest_solution_chain square dictionary

/-- Claim C1 (amended): for adjacent words in a returned sequence, the side
owning the last letter of the earlier word EQUALS the side owning the first
letter of the later word — the boundary letters coincide, so the cross-word
transition never changes sides, contrary to the spec sentence. -/
theorem claim_c1_amended (square : Square) (dictionary : List Word)
    (hdisj : sides_disjointb square = true) :
    List.Chain' (fun a b : Word =>
      ((a.map Char.toLower).getLast?).bind (letter_sides square) =
      ((b.map Char.toLower).head?).bind (letter_sides square))
      (find_shortest_solution square dictionary) := by
  refine (find_shortest_solution_chain square dictionary).imp ?_
  intro a b h
  rw [h]

/-- Counterexample to claim C1 as stated: in a returned 2-word solution, the side owning the last letter of the first word is the SAME side that owns the first letter of the second word. -/
theorem claim_c1_counterexample :
    sides_disjointb exampleSquare = true ∧
    find_shortest_solution exampleSquare twoWordDict =
      ["adbecf".toList, "fgjhkil".toList] ∧
    (("adbecf".toList : Word).getLast?).bind (letter_sides exampleSquare) =
      (("fgjhkil".toList : Word).head?).bind (letter_sides exampleSquare) ∧
    ((("adbecf".toList : Word).getLast?).bind (letter_sides exampleSquare)).isSome
      = true := by
  decide

/-- Witness for the amended claim C1 at concrete inputs. -/
theorem claim_c1_witness :
    List.Chain' (fun a b : Word =>
      ((a.map Char.toLower).getLast?).bind (letter_sides exampleSquare) =
      ((b.map Char.toLower).head?).bind (letter_sides exampleSquare))
      (find_shortest_solution exampleSquare twoWordDict) :=
  claim_c1_amended exampleSquare twoWordDict (by decide)

theorem forall2_mem_right {α β : Type} {S : α → β → Prop} :
    ∀ {l : List α} {l2 : List β}, List.Forall₂ S l l2 →
      ∀ b ∈ l2, ∃ a ∈ l, S a b := by
  intro l l2 hf
  induction hf with
  | nil => intro b hb; cases hb
  | cons ha ht ih =>
    intro b hb
    rcases List.mem_cons.mp hb with rfl | hb2
    · exact ⟨_, List.mem_cons_self _ _, ha⟩
    · obtain ⟨a, ham, hs⟩ := ih b hb2
      exact ⟨a, List.mem_cons_of_mem _ ham, hs⟩

/-- Claim C10: every word in a result of `find_shortest_solution` is, up to
casing, an element of the supplied dictionary whose lowercase form satisfies
`is_valid_word` for the normalized square; the solver never returns a word
it was not given or that is not playable. -/
theorem claim_c10_result_words_playable (square : Square) (dictionary : List Word)
    (hdisj : sides_disjointb square = true) :
    ∀ r ∈ find_shortest_solution square dictionary,
      ∃ w ∈ dictionary, r.map Char.toLower = w.map Char.toLower ∧
        is_valid_word (r.map Char.toLower) (normalize_square square) = true := by
  intro r hr
  cases hd : dictionary.isEmpty with
  | true =>
    have he : find_shortest_solution square dictionary = [] := by
      unfold find_shortest_solution
      simp [hd]
    rw [he] at hr
    cases hr
  | false =>
    cases hp : (playable_words square dictionary).isEmpty with
    | true =>
      have he : find_shortest_solution square dictionary = [] := by
        unfold find_shortest_solution
        simp [hd, hp]
      rw [he] at hr
      cases hr
    | false =>
      cases hs : (search_result square dictionary).1 with
      | none =>
        cases hgl : ((sorted_playable square dictionary).insertionSort
            (fallback_r (all_puzzle_letters square))).getLast? with
        | none =>
          have he : find_shortest_solution square dictionary = [] := by
            unfold find_shortest_solution
            simp only [hd, hp, hs, hgl, Bool.false_eq_true, if_false]
          rw [he] at hr
          cases hr
        | some b =>
          have hbmem : b ∈ playable_words square dictionary := by
            have h1 := List.mem_of_getLast?_eq_some hgl
            exact (List.mem_insertionSort playable_r).mp
              (((List.mem_insertionSort (fallback_r (all_puzzle_letters square)))).mp h1)
          obtain ⟨v, hv⟩ := lookup_original_key_isSome hbmem
          have he : find_shortest_solution square dictionary =
              [(lookup_original (original_case square dictionary) b).getD b] := by
            unfold find_shortest_solution
            simp only [hd, hp, hs, hgl, Bool.false_eq_true, if_false]
          rw [he] at hr
          have hrv : r = v := by
            have : r = (lookup_original (original_case square dictionary) b).getD b := by
              simpa using hr
            rw [this, hv]
            rfl
          subst hrv
          have hpair := mem_playablePairs (lookup_original_eq_some hv)
          refine ⟨r, hpair.1, rfl, ?_⟩
          rw [← hpair.2.2.1]
          exact hpair.2.2.2
      | some sol =>
        have hgood := search_result_good hs
        obtain ⟨rs, hrs⟩ := restore_case_isSome sol (sol_lookup_isSome hgood)
        have he : find_shortest_solution square dictionary = rs := by
          unfold find_shortest_solution
          simp only [hd, hp, hs, hrs, Bool.false_eq_true, if_false]
        rw [he] at hr
        obtain ⟨s, hsmem, hlook⟩ := forall2_mem_right (restore_case_forall2 sol rs hrs) r hr
        have hpair := mem_playablePairs (lookup_original_eq_some hlook)
        refine ⟨r, hpair.1, rfl, ?_⟩
        rw [← hpair.2.2.1]
        exact hpair.2.2.2

/-- Witness for claim C10 at concrete inputs. -/
theorem claim_c10_witness :
    ∃ w ∈ twoWordDict,
      ("adbecf".toList : Word).map Char.toLower = w.map Char.toLower ∧
      is_valid_word (("adbecf".toList : Word).map Char.toLower)
        (normalize_square exampleSquare) = true :=
  claim_c10_result_words_playable exampleSquare twoWordDict (by decide)
    "adbecf".toList (by decide)
